import Mathlib

/-!
Verification development for the ExpertAI multi-agent task orchestration and
delegation engine (component `TeamTasks`, functions `executeSingleTask`,
`handleExecuteBatchTasks`, `handleClearPending`, and the task helper
`runExpertTask`).

The delegation directive scanner embeds the JavaScript global regular
expression `/:::DELEGATE:::(.+?):::(.+?):::/g` used both by the extraction
loop (`delegateRegex.exec`) and by the stripping call
(`result.resultContent.replace(delegateRegex, '')`): matches are found left
to right, the lazy groups take the shortest possible text, the dot does not
cross line terminators, and scanning resumes immediately after each match.

The engine itself is embedded as a labelled transition system whose atomic
steps are the synchronous segments of the source's async functions: a task
either begins (the cancellation check, marker creation and adapter call all
happen before the single `await`) or settles (everything after the `await`,
including follow-up scheduling and the `finally` counter decrement, runs in
one uninterrupted resumption).
-/

namespace ExpertAI

/-- Characters matched by the dot of the delegation pattern: the JavaScript
regular expression dot matches any character except the four line
terminators. -/
def isDotChar (c : Char) : Bool :=
  !(c = '\n' || c = '\r' || c = '\u2028' || c = '\u2029')

/-- The three-colon sentinel used by the delegation wire format. -/
def colon3 : List Char := [':', ':', ':']

/-- The fixed literal head of a delegation directive, 14 characters. -/
def delegateLit : List Char := ":::DELEGATE:::".data

/-- All ways the lazy fragment `(.+?):::` can match a prefix of `s`: pairs of
the captured group and the remainder after the closing sentinel, listed with
the shortest capture first, exactly the order in which a backtracking lazy
quantifier tries them. -/
def segCands : List Char → List (List Char × List Char)
  | [] => []
  | c :: rest =>
    if isDotChar c then
      (if colon3.isPrefixOf rest then [([c], rest.drop 3)] else []) ++
      (segCands rest).map (fun p => (c :: p.1, p.2))
    else []

/-- Backtracking match of the directive body `(.+?):::(.+?):::`: the first
capture takes the shortest split for which the second fragment also matches,
and the second capture is always minimal, mirroring the regex engine. Returns
both captures and the remainder after the full match. -/
def matchBody (s : List Char) : Option (List Char × List Char × List Char) :=
  (segCands s).findSome? (fun p =>
    (segCands p.2).head?.map (fun q => (p.1, q.1, q.2)))

/-- Attempt to match one full directive at the head of `s`: the 14-character
literal followed by the two sentinel-delimited captures. -/
def tryMatchAt (s : List Char) : Option (List Char × List Char × List Char) :=
  if delegateLit.isPrefixOf s then matchBody (s.drop 14) else none

theorem segCands_len {s : List Char} {p : List Char × List Char}
    (h : p ∈ segCands s) : p.2.length < s.length := by
  induction s generalizing p with
  | nil => simp [segCands] at h
  | cons c rest ih =>
    simp only [segCands] at h
    split at h
    · rcases List.mem_append.1 h with h1 | h2
      · split at h1
        · simp only [List.mem_singleton] at h1
          subst h1
          simp only [List.length_cons, List.length_drop]
          omega
        · simp at h1
      · obtain ⟨q, hq, rfl⟩ := List.mem_map.1 h2
        have := ih hq
        simp only [List.length_cons]
        omega
    · simp at h

theorem findSome_mem {α β : Type} {f : α → Option β} :
    ∀ {l : List α} {b : β}, l.findSome? f = some b → ∃ a ∈ l, f a = some b := by
  intro l
  induction l with
  | nil => intro b h; simp [List.findSome?] at h
  | cons a l ih =>
    intro b h
    rw [List.findSome?] at h
    cases hfa : f a with
    | some c =>
      rw [hfa] at h
      exact ⟨a, List.mem_cons_self a l, by rw [hfa]; exact h⟩
    | none =>
      rw [hfa] at h
      obtain ⟨x, hx, hfx⟩ := ih h
      exact ⟨x, List.mem_cons_of_mem a hx, hfx⟩

theorem matchBody_len {s g1 g2 : List Char} {r : List Char}
    (h : matchBody s = some (g1, g2, r)) : r.length < s.length := by
  obtain ⟨p, hp, hfp⟩ := findSome_mem h
  cases hq : (segCands p.2).head? with
  | none => rw [hq] at hfp; simp at hfp
  | some q =>
    rw [hq] at hfp
    simp only [Option.map_some'] at hfp
    have hq_mem : q ∈ segCands p.2 := by
      cases hsc : segCands p.2 with
      | nil => rw [hsc] at hq; simp at hq
      | cons x xs =>
        rw [hsc] at hq
        simp only [List.head?_cons, Option.some.injEq] at hq
        subst hq
        exact hsc ▸ List.mem_cons_self x xs
    have h2 := segCands_len hq_mem
    have h1 := segCands_len hp
    have hr : r = q.2 := by
      injection hfp with h'
      have := congrArg (fun z => z.2.2) h'
      simpa using this.symm
    rw [hr]
    omega

theorem tryMatchAt_len {s g1 g2 : List Char} {r : List Char}
    (h : tryMatchAt s = some (g1, g2, r)) : r.length < s.length := by
  unfold tryMatchAt at h
  split at h
  · have := matchBody_len h
    have hd : (s.drop 14).length ≤ s.length := by
      simp only [List.length_drop]; omega
    omega
  · simp at h

/-- Fuel-driven single pass of the global regex over the text: returns the
text with every match removed together with the list of capture pairs in
match order. The scanner advances one character when no match starts at the
current position and jumps past the whole match otherwise, exactly the
semantics of `replace` and of the `exec` loop with a global regex. One unit
of fuel is spent per position, so any fuel at least the length of the text
gives the total scan. -/
def scanTextF : Nat → List Char → List Char × List (List Char × List Char)
  | _, [] => ([], [])
  | 0, s => (s, [])
  | fuel + 1, c :: rest =>
    match tryMatchAt (c :: rest) with
    | some (g1, g2, r) =>
      let t := scanTextF fuel r
      (t.1, (g1, g2) :: t.2)
    | none =>
      let t := scanTextF fuel rest
      (c :: t.1, t.2)

/-- One pass of the scanner over a whole string. -/
def scanText (s : List Char) : List Char × List (List Char × List Char) :=
  scanTextF s.length s

/-- The user-visible text after
`result.resultContent.replace(delegateRegex, '')`. -/
def stripDelegates (s : String) : String := ⟨(scanText s.data).1⟩

/-- The capture pairs produced by the `while ((match = delegateRegex.exec(...)))`
loop, in document order. -/
def rawDirectives (s : String) : List (String × String) :=
  (scanText s.data).2.map (fun p => (⟨p.1⟩, ⟨p.2⟩))

theorem scanTextF_no_match_id : ∀ (fuel : Nat) (s : List Char), s.length ≤ fuel →
    (scanTextF fuel s).2 = [] → (scanTextF fuel s).1 = s := by
  intro fuel
  induction fuel with
  | zero =>
    intro s hs _
    have : s = [] := List.eq_nil_of_length_eq_zero (Nat.le_zero.mp hs)
    subst this
    rfl
  | succ fuel ih =>
    intro s hs h2
    cases s with
    | nil => rfl
    | cons c rest =>
      cases htm : tryMatchAt (c :: rest) with
      | some v =>
        obtain ⟨g1, g2, r⟩ := v
        simp only [scanTextF, htm] at h2
        simp at h2
      | none =>
        simp only [scanTextF, htm] at h2 ⊢
        have hlen : rest.length ≤ fuel := by
          simp only [List.length_cons] at hs
          omega
        rw [ih rest hlen h2]

/-- Expert record from `types.ts`. -/
structure Expert where
  id : String
  name : String
  role : String
  avatar : String
  description : String
  isCustom : Bool
deriving DecidableEq

/-- Status field of the local `PendingTask` interface. -/
inductive MarkerStatus
  | pending
  | success
  | error
deriving DecidableEq

/-- The `PendingTask` interface of `TeamTasks` (the visual pending marker). -/
structure PendingTask where
  id : String
  expertId : String
  expertName : String
  expertAvatar : String
  status : MarkerStatus
  errorMessage : Option String
  triggerBy : Option String
deriving DecidableEq

/-- The `TaskResult` record from `types.ts`. -/
structure TaskResult where
  id : String
  expertId : String
  expertName : String
  expertAvatar : String
  taskDescription : String
  resultContent : String
  timestamp : Nat
  triggerBy : Option String
deriving DecidableEq

/-- One call of `executeSingleTask`: the target expert, the instruction, the
optional `triggerBy` name and the recursion depth argument. -/
structure TaskInvocation where
  expert : Expert
  instruction : String
  triggerBy : Option String
  depth : Nat
deriving DecidableEq

/-- The `MAX_DEPTH` constant of `executeSingleTask`. -/
def MAX_DEPTH : Nat := 2

/-- Whitespace removed by `String.prototype.trim` (the characters relevant to
the embedding). -/
def trimChars (l : List Char) : List Char :=
  ((l.dropWhile Char.isWhitespace).reverse.dropWhile Char.isWhitespace).reverse

/-- Lower-casing of `String.prototype.toLowerCase`, applied characterwise. -/
def lowerChars (l : List Char) : List Char := l.map Char.toLower

/-- Substring containment of `String.prototype.includes`: some suffix of the
haystack starts with the pattern. -/
def containsSub (pat : List Char) : List Char → Bool
  | [] => pat.isPrefixOf ([] : List Char)
  | c :: t => pat.isPrefixOf (c :: t) || containsSub pat t

/-- The fuzzy target lookup
`team.find(e => e.name.toLowerCase().includes(targetNamePartial.trim().toLowerCase()))`. -/
def resolveTarget (team : List Expert) (raw : String) : Option Expert :=
  team.find? (fun e => containsSub (lowerChars (trimChars raw.data)) (lowerChars e.name.data))

/-- The `followUpTasks` list built by `executeSingleTask`: extraction runs
only below `MAX_DEPTH`; each capture pair is resolved against the team and
dropped when unresolved or when it names the acting expert. -/
def followUps (team : List Expert) (actor : Expert) (raw : String) (depth : Nat) :
    List (Expert × String) :=
  if depth < MAX_DEPTH then
    (rawDirectives raw).filterMap (fun d =>
      match resolveTarget team d.1 with
      | some tgt => if tgt.id ≠ actor.id then some (tgt, d.2) else none
      | none => none)
  else []

/-- Shared mutable state of the `TeamTasks` component that the engine touches:
scheduled-but-not-started invocations, in-flight invocations, the active task
counter, the stop flag, the pending markers and the result store. -/
structure EngineState where
  queued : List TaskInvocation
  started : List TaskInvocation
  activeTaskCount : Int
  stopAutoExecution : Bool
  pendingTasks : List PendingTask
  taskResults : List TaskResult
deriving DecidableEq

/-- The marker appended when an invocation begins (step 1 of
`executeSingleTask`); its id is the nondeterministic `pending_...` string. -/
def mkMarker (mid : String) (t : TaskInvocation) : PendingTask :=
  { id := mid, expertId := t.expert.id, expertName := t.expert.name,
    expertAvatar := t.expert.avatar, status := .pending, errorMessage := none,
    triggerBy := t.triggerBy }

/-- The `TaskResult` recorded on success: built by `runExpertTask` from the
invocation, then `triggerBy` is attached and `resultContent` is overwritten
with the stripped text before it is stored. -/
def mkResult (rid : String) (ts : Nat) (t : TaskInvocation) (raw : String) : TaskResult :=
  { id := rid, expertId := t.expert.id, expertName := t.expert.name,
    expertAvatar := t.expert.avatar, taskDescription := t.instruction,
    resultContent := stripDelegates raw, timestamp := ts, triggerBy := t.triggerBy }

/-- The marker update applied in the catch branch:
`p.expertId === expert.id ? { ...p, status: 'error', errorMessage } : p`. -/
def errifyMarker (eid : String) (msg : String) (p : PendingTask) : PendingTask :=
  if p.expertId == eid then { p with status := .error, errorMessage := some msg } else p

/-- The follow-up invocations passed to the delayed
`executeSingleTask(task.target, task.instruction, expert.name, depth + 1)` calls. -/
def spawn (actor : Expert) (depth : Nat) (fu : List (Expert × String)) : List TaskInvocation :=
  fu.map (fun p =>
    { expert := p.1, instruction := p.2, triggerBy := some actor.name, depth := depth + 1 })

/-- The `willContinue` guard of step 6 of `executeSingleTask`. -/
def willContinue (fu : List (Expert × String)) (depth : Nat) (stop : Bool) : Bool :=
  !fu.isEmpty && decide (depth < MAX_DEPTH) && !stop

/-- State after the success resumption of `executeSingleTask` for the
in-flight invocation `t` (the text between the `await` and the end of the
`try` block, plus the `finally` decrement, all of which runs atomically):
record the result, drop every marker of the acting expert, optionally
schedule the follow-ups and bump the counter, then decrement the counter. -/
def settleOkState (team : List Expert) (s : EngineState) (l₁ l₂ : List TaskInvocation)
    (t : TaskInvocation) (raw rid : String) (ts : Nat) : EngineState :=
  let fu := followUps team t.expert raw t.depth
  let wc := willContinue fu t.depth s.stopAutoExecution
  { s with
    started := l₁ ++ l₂
    taskResults := mkResult rid ts t raw :: s.taskResults
    pendingTasks := s.pendingTasks.filter (fun p => p.expertId != t.expert.id)
    queued := if wc then s.queued ++ spawn t.expert t.depth fu else s.queued
    activeTaskCount :=
      if wc then max 0 (s.activeTaskCount + fu.length - 1)
      else max 0 (s.activeTaskCount - 1) }

/-- State after the failure resumption of `executeSingleTask` for the
in-flight invocation `t` (the catch branch plus the `finally` decrement):
every marker of the acting expert becomes an error marker carrying the
message, and the counter is decremented. -/
def settleErrState (s : EngineState) (l₁ l₂ : List TaskInvocation)
    (t : TaskInvocation) (msg : String) : EngineState :=
  { s with
    started := l₁ ++ l₂
    pendingTasks := s.pendingTasks.map (errifyMarker t.expert.id msg)
    activeTaskCount := max 0 (s.activeTaskCount - 1) }

/-- State after a queued invocation is abandoned: the stop flag was found set
at the head of `executeSingleTask`, so the counter is decremented and nothing
else happens. -/
def abandonState (s : EngineState) (l₁ l₂ : List TaskInvocation) : EngineState :=
  { s with queued := l₁ ++ l₂, activeTaskCount := max 0 (s.activeTaskCount - 1) }

/-- State after a queued invocation begins: it leaves the queue, appends its
pending marker, and is in flight on the adapter call. -/
def startRunState (s : EngineState) (l₁ l₂ : List TaskInvocation)
    (t : TaskInvocation) (mid : String) : EngineState :=
  { s with
    queued := l₁ ++ l₂
    started := s.started ++ [t]
    pendingTasks := s.pendingTasks ++ [mkMarker mid t] }

/-- State after `handleStopExecution` sets the flag. -/
def cancelState (s : EngineState) : EngineState :=
  { s with stopAutoExecution := true }

/-- State after `handleClearPending(expertId)`. -/
def clearPendingState (s : EngineState) (eid : String) : EngineState :=
  { s with pendingTasks := s.pendingTasks.filter (fun p => p.expertId != eid) }

/-- Execution steps of the engine proper: an invocation either begins
(abandoned at once when the stop flag is set, otherwise it creates its marker
and goes in flight) or settles (success or failure of the adapter call, whose
outcome text or message is chosen adversarially). -/
inductive ExecStep (team : List Expert) : EngineState → EngineState → Prop
  | startAbandon (s : EngineState) (l₁ l₂ : List TaskInvocation) (t : TaskInvocation)
      (hq : s.queued = l₁ ++ t :: l₂) (hstop : s.stopAutoExecution = true) :
      ExecStep team s (abandonState s l₁ l₂)
  | startRun (s : EngineState) (l₁ l₂ : List TaskInvocation) (t : TaskInvocation) (mid : String)
      (hq : s.queued = l₁ ++ t :: l₂) (hstop : s.stopAutoExecution = false) :
      ExecStep team s (startRunState s l₁ l₂ t mid)
  | settleOk (s : EngineState) (l₁ l₂ : List TaskInvocation) (t : TaskInvocation)
      (raw rid : String) (ts : Nat) (hs : s.started = l₁ ++ t :: l₂) :
      ExecStep team s (settleOkState team s l₁ l₂ t raw rid ts)
  | settleErr (s : EngineState) (l₁ l₂ : List TaskInvocation) (t : TaskInvocation)
      (msg : String) (hs : s.started = l₁ ++ t :: l₂) :
      ExecStep team s (settleErrState s l₁ l₂ t msg)

/-- Full step relation: an execution step, the user's stop request
(`handleStopExecution`, a no-op on the flag when it is already set), or the
user's explicit dismissal of a marker (`handleClearPending`). -/
inductive Step (team : List Expert) : EngineState → EngineState → Prop
  | exec {s s' : EngineState} (h : ExecStep team s s') : Step team s s'
  | cancel (s : EngineState) (h : s.stopAutoExecution = false) :
      Step team s (cancelState s)
  | clearPending (s : EngineState) (eid : String) :
      Step team s (clearPendingState s eid)

/-- Reachability along engine steps. -/
def Reach (team : List Expert) : EngineState → EngineState → Prop :=
  Relation.ReflTransGen (Step team)

/-- Component state visible to `handleExecuteBatchTasks`: the props, the
selection and input boxes, the termination notice and the engine state. -/
structure AppState where
  team : List Expert
  projectDescription : String
  selectedExpertIds : List String
  taskInput : String
  terminationMessage : Option String
  eng : EngineState
deriving DecidableEq

/-- Blank test `!str.trim()` used by the dispatch validation. -/
def blank (s : String) : Bool := (trimChars s.data).isEmpty

/-- The `selectedExperts` snapshot:
`team.filter(e => selectedExpertIds.has(e.id))`. -/
def selectedExperts (a : AppState) : List Expert :=
  a.team.filter (fun e => a.selectedExpertIds.contains e.id)

/-- `handleExecuteBatchTasks`: the three validation checks alert (returning
the message) and change nothing; otherwise the stop flag and notice are
reset, the input box is cleared, the counter is set to the number of selected
experts and one depth-0 root invocation without a trigger is scheduled per
selected expert. -/
def handleExecuteBatchTasks (a : AppState) : AppState × Option String :=
  if a.selectedExpertIds.length = 0 then (a, some "请至少选择一位专家")
  else if blank a.taskInput then (a, some "请输入任务内容")
  else if blank a.projectDescription then (a, some "请先在“专家团组建”页面完善项目背景")
  else
    let sel := selectedExperts a
    ({ a with
        terminationMessage := none
        taskInput := ""
        eng := { a.eng with
          stopAutoExecution := false
          activeTaskCount := (sel.length : Int)
          queued := a.eng.queued ++ sel.map (fun e =>
            { expert := e, instruction := a.taskInput, triggerBy := none, depth := 0 }) } },
     none)

/-- The active counter always equals the number of invocations that are
scheduled or in flight. -/
def CounterInv (s : EngineState) : Prop :=
  s.activeTaskCount = ((s.queued.length + s.started.length : Nat) : Int)

/-- Every marker still in pending status belongs to some in-flight
invocation of the same expert. -/
def PendingInv (s : EngineState) : Prop :=
  ∀ m ∈ s.pendingTasks, m.status = MarkerStatus.pending →
    ∃ t ∈ s.started, t.expert.id = m.expertId

/-- No scheduled or in-flight invocation exceeds the depth ceiling. -/
def DepthInv (s : EngineState) : Prop :=
  ∀ t, (t ∈ s.queued ∨ t ∈ s.started) → t.depth ≤ MAX_DEPTH

theorem willContinue_depth {fu : List (Expert × String)} {depth : Nat} {stop : Bool}
    (h : willContinue fu depth stop = true) : depth < MAX_DEPTH := by
  unfold willContinue at h
  simp only [Bool.and_eq_true, decide_eq_true_eq] at h
  exact h.1.2

theorem willContinue_not_stopped {fu : List (Expert × String)} {depth : Nat} {stop : Bool}
    (h : willContinue fu depth stop = true) : stop = false := by
  unfold willContinue at h
  simp only [Bool.and_eq_true, Bool.not_eq_true'] at h
  exact h.2

theorem spawn_length (actor : Expert) (depth : Nat) (fu : List (Expert × String)) :
    (spawn actor depth fu).length = fu.length := by
  simp [spawn]

theorem step_counterInv {team : List Expert} {s s' : EngineState}
    (h : Step team s s') (hc : CounterInv s) : CounterInv s' := by
  unfold CounterInv at *
  cases h with
  | exec he =>
    cases he with
    | startAbandon l₁ l₂ t hq hstop =>
      simp only [abandonState]
      rw [hq] at hc
      simp only [List.length_append, List.length_cons] at hc ⊢
      omega
    | startRun l₁ l₂ t mid hq hstop =>
      simp only [startRunState]
      rw [hq] at hc
      simp only [List.length_append, List.length_cons, List.length_nil] at hc ⊢
      omega
    | settleOk l₁ l₂ t raw rid ts hs =>
      simp only [settleOkState]
      rw [hs] at hc
      by_cases hwc : willContinue (followUps team t.expert raw t.depth) t.depth
          s.stopAutoExecution = true
      · simp only [hwc, if_true, List.length_append, List.length_cons, spawn_length] at hc ⊢
        omega
      · simp only [Bool.not_eq_true] at hwc
        simp only [hwc, Bool.false_eq_true, if_false, List.length_append, List.length_cons] at hc ⊢
        omega
    | settleErr l₁ l₂ t msg hs =>
      simp only [settleErrState]
      rw [hs] at hc
      simp only [List.length_append, List.length_cons] at hc ⊢
      omega
  | cancel h => simpa [cancelState] using hc
  | clearPending eid => simpa [clearPendingState] using hc

theorem step_pendingInv {team : List Expert} {s s' : EngineState}
    (h : Step team s s') (hp : PendingInv s) : PendingInv s' := by
  unfold PendingInv at *
  cases h with
  | exec he =>
    cases he with
    | startAbandon l₁ l₂ t hq hstop =>
      intro m hm hst
      exact hp m hm hst
    | startRun l₁ l₂ t mid hq hstop =>
      intro m hm hst
      simp only [startRunState, List.mem_append, List.mem_singleton] at hm ⊢
      rcases hm with hm | hm
      · obtain ⟨u, hu, hid⟩ := hp m hm hst
        exact ⟨u, Or.inl hu, hid⟩
      · subst hm
        exact ⟨t, Or.inr rfl, rfl⟩
    | settleOk l₁ l₂ t raw rid ts hs =>
      intro m hm hst
      simp only [settleOkState, List.mem_filter, bne_iff_ne, ne_eq] at hm
      obtain ⟨hm, hne⟩ := hm
      obtain ⟨u, hu, hid⟩ := hp m hm hst
      rw [hs] at hu
      have hut : u ≠ t := by
        intro hEq
        apply hne
        rw [← hid, hEq]
      refine ⟨u, ?_, hid⟩
      simp only [settleOkState]
      simp only [List.mem_append, List.mem_cons] at hu ⊢
      rcases hu with hu | hu | hu
      · exact Or.inl hu
      · exact absurd hu hut
      · exact Or.inr hu
    | settleErr l₁ l₂ t msg hs =>
      intro m hm hst
      simp only [settleErrState, List.mem_map] at hm
      obtain ⟨m₀, hm₀, rfl⟩ := hm
      unfold errifyMarker at hst ⊢
      by_cases hid : m₀.expertId == t.expert.id
      · simp only [hid, if_true] at hst
        simp at hst
      · simp only [hid, Bool.false_eq_true, if_false] at hst ⊢
        obtain ⟨u, hu, huid⟩ := hp m₀ hm₀ hst
        rw [hs] at hu
        have hut : u ≠ t := by
          intro hEq
          apply hid
          rw [← huid, hEq]
          exact beq_self_eq_true _
        refine ⟨u, ?_, huid⟩
        simp only [settleErrState]
        simp only [List.mem_append, List.mem_cons] at hu ⊢
        rcases hu with hu | hu | hu
        · exact Or.inl hu
        · exact absurd hu hut
        · exact Or.inr hu
  | cancel h =>
    intro m hm hst
    exact hp m hm hst
  | clearPending eid =>
    intro m hm hst
    simp only [clearPendingState, List.mem_filter] at hm
    exact hp m hm.1 hst

theorem mem_append_of_mem_middle {α : Type} {l₁ l₂ : List α} {t u : α}
    (h : u ∈ l₁ ++ l₂) : u ∈ l₁ ++ t :: l₂ := by
  simp only [List.mem_append, List.mem_cons] at *
  tauto

theorem spawn_depth {actor : Expert} {depth : Nat} {fu : List (Expert × String)}
    {u : TaskInvocation} (h : u ∈ spawn actor depth fu) : u.depth = depth + 1 := by
  simp only [spawn, List.mem_map] at h
  obtain ⟨p, _, rfl⟩ := h
  rfl

theorem step_depthInv {team : List Expert} {s s' : EngineState}
    (h : Step team s s') (hd : DepthInv s) : DepthInv s' := by
  unfold DepthInv at *
  cases h with
  | exec he =>
    cases he with
    | startAbandon l₁ l₂ t hq hstop =>
      intro u hu
      simp only [abandonState] at hu
      apply hd
      rcases hu with hu | hu
      · exact Or.inl (hq ▸ mem_append_of_mem_middle hu)
      · exact Or.inr hu
    | startRun l₁ l₂ t mid hq hstop =>
      intro u hu
      simp only [startRunState] at hu
      apply hd
      rcases hu with hu | hu
      · exact Or.inl (hq ▸ mem_append_of_mem_middle hu)
      · rcases List.mem_append.1 hu with hu | hu
        · exact Or.inr hu
        · rw [List.mem_singleton.1 hu]
          exact Or.inl (hq ▸ (by simp : t ∈ l₁ ++ t :: l₂))
    | settleOk l₁ l₂ t raw rid ts hs =>
      intro u hu
      simp only [settleOkState] at hu
      rcases hu with hu | hu
      · by_cases hwc : willContinue (followUps team t.expert raw t.depth) t.depth
            s.stopAutoExecution = true
        · rw [if_pos hwc] at hu
          rcases List.mem_append.1 hu with hu | hu
          · exact hd u (Or.inl hu)
          · have h1 := spawn_depth hu
            have h2 := willContinue_depth hwc
            unfold MAX_DEPTH at *
            omega
        · rw [if_neg hwc] at hu
          exact hd u (Or.inl hu)
      · exact hd u (Or.inr (hs ▸ mem_append_of_mem_middle hu))
    | settleErr l₁ l₂ t msg hs =>
      intro u hu
      simp only [settleErrState] at hu
      rcases hu with hu | hu
      · exact hd u (Or.inl hu)
      · exact hd u (Or.inr (hs ▸ mem_append_of_mem_middle hu))
  | cancel h =>
    intro u hu
    exact hd u hu
  | clearPending eid =>
    intro u hu
    exact hd u hu

theorem reach_inv {team : List Expert} {P : EngineState → Prop}
    (hstep : ∀ {a b : EngineState}, Step team a b → P a → P b)
    {s₀ s : EngineState} (h : Reach team s₀ s) (h0 : P s₀) : P s := by
  induction h with
  | refl => exact h0
  | tail _ hs ih => exact hstep hs ih

/-- C4: for every dispatched batch and every interleaving, the active task
counter is never negative, always equals the number of scheduled plus
in-flight invocations (so it reaches exactly 0 once every root task and every
follow-up has settled, and only then), and whenever it is 0 no PendingMarker
has status pending. -/
theorem c4_active_counter_invariant (team : List Expert) (s₀ : EngineState)
    (h₁ : s₀.activeTaskCount = (s₀.queued.length : Int))
    (h₂ : s₀.started = [])
    (h₃ : ∀ m ∈ s₀.pendingTasks, m.status ≠ MarkerStatus.pending) :
    ∀ s, Reach team s₀ s →
      0 ≤ s.activeTaskCount ∧
      s.activeTaskCount = ((s.queued.length + s.started.length : Nat) : Int) ∧
      (s.activeTaskCount = 0 →
        s.queued = [] ∧ s.started = [] ∧
        ∀ m ∈ s.pendingTasks, m.status ≠ MarkerStatus.pending) ∧
      ((s.queued = [] ∧ s.started = []) → s.activeTaskCount = 0) := by
  intro s hr
  have hinv : CounterInv s ∧ PendingInv s := by
    refine reach_inv (P := fun x => CounterInv x ∧ PendingInv x)
      (fun hstep hab => ⟨step_counterInv hstep hab.1, step_pendingInv hstep hab.2⟩) hr ⟨?_, ?_⟩
    · unfold CounterInv
      rw [h₂]
      simpa using h₁
    · intro m hm hp
      exact absurd hp (h₃ m hm)
  obtain ⟨hc, hp⟩ := hinv
  unfold CounterInv at hc
  refine ⟨by omega, hc, ?_, ?_⟩
  · intro h0
    rw [h0] at hc
    have hq : s.queued.length = 0 ∧ s.started.length = 0 := by omega
    have hqe : s.queued = [] := List.eq_nil_of_length_eq_zero hq.1
    have hse : s.started = [] := List.eq_nil_of_length_eq_zero hq.2
    refine ⟨hqe, hse, ?_⟩
    intro m hm hst
    obtain ⟨u, hu, _⟩ := hp m hm hst
    rw [hse] at hu
    exact absurd hu (List.not_mem_nil u)
  · intro ⟨hqe, hse⟩
    rw [hqe, hse] at hc
    simpa using hc

/-- All invocations that are scheduled or in flight. -/
def outstanding (s : EngineState) : List TaskInvocation := s.queued ++ s.started

/-- Number of outstanding invocations at a given depth. -/
def depthCount (s : EngineState) (d : Nat) : Nat :=
  (outstanding s).countP (fun u => u.depth == d)

/-- Termination measure: outstanding invocations per depth level,
lexicographically, with the queue length as tie-breaker. -/
def measure4 (s : EngineState) : Nat × Nat × Nat × Nat :=
  (depthCount s 0, depthCount s 1, depthCount s 2, s.queued.length)

/-- Lexicographic order on the measure. -/
def LexLt4 : Nat × Nat × Nat × Nat → Nat × Nat × Nat × Nat → Prop :=
  Prod.Lex (· < ·) (Prod.Lex (· < ·) (Prod.Lex (· < ·) (· < ·)))

theorem lexLt4_wf : WellFounded LexLt4 :=
  WellFounded.prod_lex wellFounded_lt
    (WellFounded.prod_lex wellFounded_lt
      (WellFounded.prod_lex wellFounded_lt wellFounded_lt))

theorem lex4_one {a a' b b' c c' d d' : Nat} (h : a' < a) :
    LexLt4 (a', b', c', d') (a, b, c, d) := Prod.Lex.left _ _ h

theorem lex4_two {a a' b b' c c' d d' : Nat} (ha : a' = a) (h : b' < b) :
    LexLt4 (a', b', c', d') (a, b, c, d) := by
  subst ha
  exact Prod.Lex.right _ (Prod.Lex.left _ _ h)

theorem lex4_three {a a' b b' c c' d d' : Nat} (ha : a' = a) (hb : b' = b) (h : c' < c) :
    LexLt4 (a', b', c', d') (a, b, c, d) := by
  subst ha; subst hb
  exact Prod.Lex.right _ (Prod.Lex.right _ (Prod.Lex.left _ _ h))

theorem lex4_four {a a' b b' c c' d d' : Nat} (ha : a' = a) (hb : b' = b) (hc : c' = c)
    (h : d' < d) : LexLt4 (a', b', c', d') (a, b, c, d) := by
  subst ha; subst hb; subst hc
  exact Prod.Lex.right _ (Prod.Lex.right _ (Prod.Lex.right _ h))

theorem spawn_countP (actor : Expert) (depth : Nat) (fu : List (Expert × String)) (d : Nat) :
    (spawn actor depth fu).countP (fun u => u.depth == d) =
      if depth + 1 = d then fu.length else 0 := by
  unfold spawn
  rw [List.countP_map]
  by_cases h : depth + 1 = d
  · simp [Function.comp_def, h]
  · simp [Function.comp_def, h]

theorem execStep_measure_lt {team : List Expert} {s s' : EngineState}
    (h : ExecStep team s s') (hd : DepthInv s) : LexLt4 (measure4 s') (measure4 s) := by
  cases h with
  | startAbandon l₁ l₂ t hq hstop =>
    have hD : t.depth ≤ 2 := hd t (Or.inl (hq ▸ (by simp : t ∈ l₁ ++ t :: l₂)))
    have key : ∀ d, depthCount (abandonState s l₁ l₂) d +
        (if t.depth == d then 1 else 0) = depthCount s d := by
      intro d
      unfold depthCount outstanding abandonState
      simp only
      rw [hq]
      simp only [List.countP_append, List.countP_cons, List.countP_nil, beq_iff_eq]
      split_ifs <;> omega
    have h0 := key 0
    have h1 := key 1
    have h2 := key 2
    have hcase : t.depth = 0 ∨ t.depth = 1 ∨ t.depth = 2 := by omega
    unfold measure4
    rcases hcase with hD0 | hD1 | hD2
    · apply lex4_one
      simp [hD0] at h0
      omega
    · apply lex4_two
      · simp [hD1] at h0
        omega
      · simp [hD1] at h1
        omega
    · apply lex4_three
      · simp [hD2] at h0
        omega
      · simp [hD2] at h1
        omega
      · simp [hD2] at h2
        omega
  | startRun l₁ l₂ t mid hq hstop =>
    have key : ∀ d, depthCount (startRunState s l₁ l₂ t mid) d = depthCount s d := by
      intro d
      unfold depthCount outstanding startRunState
      simp only
      rw [hq]
      simp only [List.countP_append, List.countP_cons, List.countP_nil, beq_iff_eq]
      split_ifs <;> omega
    apply lex4_four (key 0) (key 1) (key 2)
    simp only [startRunState]
    rw [hq]
    simp only [List.length_append, List.length_cons]
    omega
  | settleOk l₁ l₂ t raw rid ts hs =>
    have hD : t.depth ≤ 2 := hd t (Or.inr (hs ▸ (by simp : t ∈ l₁ ++ t :: l₂)))
    by_cases hwc : willContinue (followUps team t.expert raw t.depth) t.depth
        s.stopAutoExecution = true
    · have hD2 : t.depth < 2 := willContinue_depth hwc
      have key : ∀ d, depthCount (settleOkState team s l₁ l₂ t raw rid ts) d +
          (if t.depth == d then 1 else 0) =
          depthCount s d +
            (if t.depth + 1 = d then (followUps team t.expert raw t.depth).length else 0) := by
        intro d
        unfold depthCount outstanding settleOkState
        simp only [hwc, if_true]
        rw [hs]
        simp only [List.countP_append, List.countP_cons, List.countP_nil, spawn_countP,
          beq_iff_eq]
        split_ifs <;> omega
      have h0 := key 0
      have h1 := key 1
      have hcase : t.depth = 0 ∨ t.depth = 1 := by omega
      unfold measure4
      rcases hcase with hD0 | hD1
      · apply lex4_one
        simp [hD0] at h0
        omega
      · apply lex4_two
        · simp [hD1] at h0
          omega
        · simp [hD1] at h1
          omega
    · have key : ∀ d, depthCount (settleOkState team s l₁ l₂ t raw rid ts) d +
          (if t.depth == d then 1 else 0) = depthCount s d := by
        intro d
        unfold depthCount outstanding settleOkState
        simp only [Bool.not_eq_true] at hwc
        simp only [hwc, Bool.false_eq_true, if_false]
        rw [hs]
        simp only [List.countP_append, List.countP_cons, List.countP_nil, beq_iff_eq]
        split_ifs <;> omega
      have h0 := key 0
      have h1 := key 1
      have h2 := key 2
      have hcase : t.depth = 0 ∨ t.depth = 1 ∨ t.depth = 2 := by omega
      unfold measure4
      rcases hcase with hD0 | hD1 | hD2
      · apply lex4_one
        simp [hD0] at h0
        omega
      · apply lex4_two
        · simp [hD1] at h0
          omega
        · simp [hD1] at h1
          omega
      · apply lex4_three
        · simp [hD2] at h0
          omega
        · simp [hD2] at h1
          omega
        · simp [hD2] at h2
          omega
  | settleErr l₁ l₂ t msg hs =>
    have hD : t.depth ≤ 2 := hd t (Or.inr (hs ▸ (by simp : t ∈ l₁ ++ t :: l₂)))
    have key : ∀ d, depthCount (settleErrState s l₁ l₂ t msg) d +
        (if t.depth == d then 1 else 0) = depthCount s d := by
      intro d
      unfold depthCount outstanding settleErrState
      simp only
      rw [hs]
      simp only [List.countP_append, List.countP_cons, List.countP_nil, beq_iff_eq]
      split_ifs <;> omega
    have h0 := key 0
    have h1 := key 1
    have h2 := key 2
    have hcase : t.depth = 0 ∨ t.depth = 1 ∨ t.depth = 2 := by omega
    unfold measure4
    rcases hcase with hD0 | hD1 | hD2
    · apply lex4_one
      simp [hD0] at h0
      omega
    · apply lex4_two
      · simp [hD1] at h0
        omega
      · simp [hD1] at h1
        omega
    · apply lex4_three
      · simp [hD2] at h0
        omega
      · simp [hD2] at h1
        omega
      · simp [hD2] at h2
        omega

theorem execStep_wf (team : List Expert) :
    WellFounded (fun a b : {x : EngineState // DepthInv x} => ExecStep team b.1 a.1) := by
  have hwf : WellFounded
      (InvImage LexLt4 (fun a : {x : EngineState // DepthInv x} => measure4 a.1)) :=
    InvImage.wf _ lexLt4_wf
  exact Subrelation.wf (fun {a b} h => execStep_measure_lt h b.2) hwf

/-- C1: starting from any root dispatch (all scheduled invocations at depth 0,
nothing in flight), every invocation ever scheduled or executed in any
reachable state stays within 2 delegation hops, and the execution-step
relation on depth-bounded states is well-founded, so the delegation recursion
terminates regardless of what the model outputs. -/
theorem c1_depth_bound_and_termination (team : List Expert) (s₀ : EngineState)
    (h₁ : ∀ t ∈ s₀.queued, t.depth = 0) (h₂ : s₀.started = []) :
    (∀ s, Reach team s₀ s → ∀ t, (t ∈ s.queued ∨ t ∈ s.started) → t.depth ≤ MAX_DEPTH) ∧
    WellFounded (fun a b : {x : EngineState // DepthInv x} => ExecStep team b.1 a.1) := by
  constructor
  · intro s hr
    refine reach_inv (P := DepthInv) (fun hstep hd => step_depthInv hstep hd) hr ?_
    intro t ht
    rcases ht with ht | ht
    · rw [h₁ t ht]
      unfold MAX_DEPTH
      omega
    · rw [h₂] at ht
      exact absurd ht (List.not_mem_nil t)
  · exact execStep_wf team

/-- Sample expert used by the concrete witnesses. -/
def alice : Expert :=
  { id := "e1", name := "Alice", role := "商业咨询", avatar := "a.png",
    description := "resident consultant", isCustom := false }

/-- Sample expert used by the concrete witnesses. -/
def bob : Expert :=
  { id := "e2", name := "Bob", role := "技术开发", avatar := "b.png",
    description := "veteran engineer", isCustom := false }

/-- Sample expert used by the concrete witnesses. -/
def carol : Expert :=
  { id := "e3", name := "Carol", role := "市场营销", avatar := "c.png",
    description := "growth lead", isCustom := false }

/-- Sample team used by the concrete witnesses. -/
def teamABC : List Expert := [alice, bob, carol]

/-- Root invocation of Alice used by the concrete witnesses. -/
def tA : TaskInvocation :=
  { expert := alice, instruction := "Review the budget", triggerBy := none, depth := 0 }

/-- Root invocation of Bob used by the concrete witnesses. -/
def tB : TaskInvocation :=
  { expert := bob, instruction := "Review the budget", triggerBy := none, depth := 0 }

/-- A freshly dispatched two-expert batch. -/
def st0 : EngineState :=
  { queued := [tA, tB], started := [], activeTaskCount := 2,
    stopAutoExecution := false, pendingTasks := [], taskResults := [] }

theorem c1_witness : tA.depth ≤ MAX_DEPTH :=
  (c1_depth_bound_and_termination teamABC st0 (by decide) rfl).1 st0
    Relation.ReflTransGen.refl tA (Or.inl (by decide))

theorem c4_witness :
    st0.activeTaskCount = ((st0.queued.length + st0.started.length : Nat) : Int) :=
  ((c4_active_counter_invariant teamABC st0 (by decide) rfl (by decide)) st0
    Relation.ReflTransGen.refl).2.1

/-- C6: `handleExecuteBatchTasks` surfaces a validation message exactly when
no expert is selected, the instruction is blank, or the project context is
blank, and then changes nothing; otherwise it resets the cancellation flag
and the notice, sets the counter to the number of selected experts, and
schedules one depth-0 root invocation without a trigger per selected expert,
leaving markers and results untouched. -/
theorem c6_dispatch_validation (a : AppState) :
    ((a.selectedExpertIds.length = 0 ∨ blank a.taskInput = true ∨
        blank a.projectDescription = true) ↔
      (handleExecuteBatchTasks a).2.isSome = true) ∧
    ((handleExecuteBatchTasks a).2.isSome = true → (handleExecuteBatchTasks a).1 = a) ∧
    ((handleExecuteBatchTasks a).2 = none →
      (handleExecuteBatchTasks a).1.eng.stopAutoExecution = false ∧
      (handleExecuteBatchTasks a).1.terminationMessage = none ∧
      (handleExecuteBatchTasks a).1.eng.activeTaskCount = ((selectedExperts a).length : Int) ∧
      (handleExecuteBatchTasks a).1.eng.queued =
        a.eng.queued ++ (selectedExperts a).map
          (fun e => { expert := e, instruction := a.taskInput, triggerBy := none, depth := 0 }) ∧
      (handleExecuteBatchTasks a).1.eng.started = a.eng.started ∧
      (handleExecuteBatchTasks a).1.eng.pendingTasks = a.eng.pendingTasks ∧
      (handleExecuteBatchTasks a).1.eng.taskResults = a.eng.taskResults) := by
  unfold handleExecuteBatchTasks
  by_cases h1 : a.selectedExpertIds.length = 0
  · simp [h1]
  · by_cases h2 : blank a.taskInput = true
    · simp [h1, h2]
    · by_cases h3 : blank a.projectDescription = true
      · simp [h1, h2, h3]
      · simp [h1, h2, h3]

/-- The engine state with no activity, used by the witnesses. -/
def engEmpty : EngineState :=
  { queued := [], started := [], activeTaskCount := 0,
    stopAutoExecution := false, pendingTasks := [], taskResults := [] }

/-- A dispatch attempt with no expert selected. -/
def appNoSel : AppState :=
  { team := teamABC, projectDescription := "AI consulting of a retail project",
    selectedExpertIds := [], taskInput := "Review the budget",
    terminationMessage := none, eng := engEmpty }

theorem c6_witness : (handleExecuteBatchTasks appNoSel).1 = appNoSel :=
  (c6_dispatch_validation appNoSel).2.1 (by decide)

/-- C7: a failing adapter call is contained to its own invocation: the
transition exists, no result is recorded, no follow-up is scheduled, only
that invocation leaves the in-flight set, the stop flag is untouched, the
acting expert's markers become error markers carrying the message, every
other expert's markers are untouched, and the counter is decremented by
exactly one. -/
theorem c7_failure_containment (team : List Expert) (s : EngineState)
    (l₁ l₂ : List TaskInvocation) (t : TaskInvocation) (msg : String)
    (hs : s.started = l₁ ++ t :: l₂) :
    Step team s (settleErrState s l₁ l₂ t msg) ∧
    (settleErrState s l₁ l₂ t msg).taskResults = s.taskResults ∧
    (settleErrState s l₁ l₂ t msg).queued = s.queued ∧
    (settleErrState s l₁ l₂ t msg).started = l₁ ++ l₂ ∧
    (settleErrState s l₁ l₂ t msg).stopAutoExecution = s.stopAutoExecution ∧
    (∀ m ∈ s.pendingTasks, m.expertId = t.expert.id →
      ({ m with status := MarkerStatus.error, errorMessage := some msg } : PendingTask) ∈
        (settleErrState s l₁ l₂ t msg).pendingTasks) ∧
    (∀ m ∈ s.pendingTasks, m.expertId ≠ t.expert.id →
      m ∈ (settleErrState s l₁ l₂ t msg).pendingTasks) ∧
    (s.activeTaskCount = ((s.queued.length + s.started.length : Nat) : Int) →
      (settleErrState s l₁ l₂ t msg).activeTaskCount = s.activeTaskCount - 1) := by
  refine ⟨Step.exec (ExecStep.settleErr s l₁ l₂ t msg hs), rfl, rfl, rfl, rfl, ?_, ?_, ?_⟩
  · intro m hm hid
    simp only [settleErrState, List.mem_map]
    refine ⟨m, hm, ?_⟩
    unfold errifyMarker
    simp [hid]
  · intro m hm hid
    simp only [settleErrState, List.mem_map]
    refine ⟨m, hm, ?_⟩
    unfold errifyMarker
    simp [hid]
  · intro hc
    simp only [settleErrState]
    rw [hs] at hc
    simp only [List.length_append, List.length_cons] at hc
    omega

/-- A one-expert state with Alice in flight, used by the witnesses. -/
def stErr : EngineState :=
  { queued := [], started := [tA], activeTaskCount := 1,
    stopAutoExecution := false, pendingTasks := [mkMarker "m1" tA], taskResults := [] }

theorem c7_witness :
    (settleErrState stErr [] [] tA "401 Unauthorized").taskResults = stErr.taskResults ∧
    (settleErrState stErr [] [] tA "401 Unauthorized").activeTaskCount =
      stErr.activeTaskCount - 1 := by
  have h := c7_failure_containment teamABC stErr [] [] tA "401 Unauthorized" rfl
  exact ⟨h.2.1, h.2.2.2.2.2.2.2 (by decide)⟩

theorem willContinue_of_stopped (fu : List (Expert × String)) (depth : Nat) :
    willContinue fu depth true = false := by
  unfold willContinue
  simp

/-- C5: once the cancellation flag is set it stays set, nothing new ever
enters the in-flight set, the queue never grows, and any step that consumes a
queued invocation is an abandonment: it only decrements the counter, creating
no marker and recording no result. Invocations already in flight can still
settle, recording their result on success and their error marker on
failure. -/
theorem c5_cancellation (team : List Expert) (s s' : EngineState)
    (hstop : s.stopAutoExecution = true) (hstep : Step team s s') :
    s'.stopAutoExecution = true ∧
    (∀ u, u ∈ s'.started → u ∈ s.started) ∧
    s'.queued.length ≤ s.queued.length ∧
    (s'.queued.length < s.queued.length →
      s'.pendingTasks = s.pendingTasks ∧ s'.taskResults = s.taskResults ∧
      s'.started = s.started ∧ s'.activeTaskCount = max 0 (s.activeTaskCount - 1)) ∧
    (∀ l₁ t l₂ raw rid ts msg, s.started = l₁ ++ t :: l₂ →
      Step team s (settleOkState team s l₁ l₂ t raw rid ts) ∧
      (settleOkState team s l₁ l₂ t raw rid ts).taskResults =
        mkResult rid ts t raw :: s.taskResults ∧
      Step team s (settleErrState s l₁ l₂ t msg) ∧
      (∀ m ∈ s.pendingTasks, m.expertId = t.expert.id →
        ({ m with status := MarkerStatus.error, errorMessage := some msg } : PendingTask) ∈
          (settleErrState s l₁ l₂ t msg).pendingTasks)) := by
  have hsettle : ∀ l₁ t l₂ raw rid ts msg, s.started = l₁ ++ t :: l₂ →
      Step team s (settleOkState team s l₁ l₂ t raw rid ts) ∧
      (settleOkState team s l₁ l₂ t raw rid ts).taskResults =
        mkResult rid ts t raw :: s.taskResults ∧
      Step team s (settleErrState s l₁ l₂ t msg) ∧
      (∀ m ∈ s.pendingTasks, m.expertId = t.expert.id →
        ({ m with status := MarkerStatus.error, errorMessage := some msg } : PendingTask) ∈
          (settleErrState s l₁ l₂ t msg).pendingTasks) := by
    intro l₁ t l₂ raw rid ts msg hmid
    refine ⟨Step.exec (ExecStep.settleOk s l₁ l₂ t raw rid ts hmid), rfl,
      Step.exec (ExecStep.settleErr s l₁ l₂ t msg hmid), ?_⟩
    intro m hm hid
    simp only [settleErrState, List.mem_map]
    refine ⟨m, hm, ?_⟩
    unfold errifyMarker
    simp [hid]
  cases hstep with
  | exec he =>
    cases he with
    | startAbandon l₁ l₂ t hq hstop0 =>
      refine ⟨hstop, fun u hu => hu, ?_, ?_, hsettle⟩
      · simp only [abandonState]
        rw [hq]
        simp only [List.length_append, List.length_cons]
        omega
      · intro _
        exact ⟨rfl, rfl, rfl, rfl⟩
    | startRun l₁ l₂ t mid hq hstop0 =>
      rw [hstop] at hstop0
      exact absurd hstop0 (by simp)
    | settleOk l₁ l₂ t raw rid ts hmid =>
      have hwc : willContinue (followUps team t.expert raw t.depth) t.depth
          s.stopAutoExecution = false := by
        rw [hstop]
        exact willContinue_of_stopped _ _
      refine ⟨hstop, ?_, ?_, ?_, hsettle⟩
      · intro u hu
        simp only [settleOkState] at hu
        exact hmid ▸ mem_append_of_mem_middle hu
      · simp only [settleOkState, hwc, Bool.false_eq_true, if_false]
        exact le_rfl
      · intro hlt
        simp only [settleOkState, hwc, Bool.false_eq_true, if_false] at hlt
        omega
    | settleErr l₁ l₂ t msg hmid =>
      refine ⟨hstop, ?_, le_rfl, ?_, hsettle⟩
      · intro u hu
        simp only [settleErrState] at hu
        exact hmid ▸ mem_append_of_mem_middle hu
      · intro hlt
        simp only [settleErrState] at hlt
        omega
  | cancel h =>
    rw [hstop] at h
    exact absurd h (by simp)
  | clearPending eid =>
    refine ⟨hstop, fun u hu => hu, le_rfl, ?_, hsettle⟩
    intro hlt
    simp only [clearPendingState] at hlt
    omega

/-- Carol's follow-up invocation scheduled at depth 1, used by the
witnesses. -/
def tC1 : TaskInvocation :=
  { expert := carol, instruction := "draft campaign", triggerBy := some "Alice", depth := 1 }

/-- A stopped state with one queued follow-up. -/
def stStop : EngineState :=
  { queued := [tC1], started := [], activeTaskCount := 1,
    stopAutoExecution := true,
    pendingTasks := [], taskResults := [] }

theorem c5_witness :
    (abandonState stStop [] []).pendingTasks = stStop.pendingTasks ∧
    (abandonState stStop [] []).taskResults = stStop.taskResults ∧
    (abandonState stStop [] []).activeTaskCount = max 0 (stStop.activeTaskCount - 1) := by
  have h := c5_cancellation teamABC stStop (abandonState stStop [] []) rfl
    (Step.exec (ExecStep.startAbandon stStop [] [] tC1 rfl rfl))
  have h4 := h.2.2.2.1 (by decide)
  exact ⟨h4.1, h4.2.1, h4.2.2.2⟩

/-- C3: below the depth ceiling, directive captures are processed in document
order with no de-duplication; each target resolved by the case-insensitive
substring lookup to an existing teammate other than the acting expert
produces one follow-up, so when every one of the N captures resolves that
way, exactly N follow-up invocations are scheduled, each at depth + 1 and
carrying the acting expert's name as trigger. -/
theorem c3_directive_resolution (team : List Expert) (s : EngineState)
    (l₁ l₂ : List TaskInvocation) (t : TaskInvocation) (raw rid : String) (ts : Nat)
    (hs : s.started = l₁ ++ t :: l₂)
    (hstop : s.stopAutoExecution = false)
    (hd : t.depth < MAX_DEPTH)
    (hres : ∀ p ∈ rawDirectives raw,
      ∃ e, resolveTarget team p.1 = some e ∧ e.id ≠ t.expert.id) :
    List.Forall₂ (fun (p : String × String) (f : Expert × String) =>
        resolveTarget team p.1 = some f.1 ∧ f.1.id ≠ t.expert.id ∧ f.2 = p.2)
      (rawDirectives raw) (followUps team t.expert raw t.depth) ∧
    (followUps team t.expert raw t.depth).length = (rawDirectives raw).length ∧
    Step team s (settleOkState team s l₁ l₂ t raw rid ts) ∧
    (rawDirectives raw ≠ [] →
      (settleOkState team s l₁ l₂ t raw rid ts).queued =
        s.queued ++ (followUps team t.expert raw t.depth).map
          (fun f => { expert := f.1, instruction := f.2,
                      triggerBy := some t.expert.name, depth := t.depth + 1 }) ∧
      (settleOkState team s l₁ l₂ t raw rid ts).queued.length =
        s.queued.length + (rawDirectives raw).length) := by
  have hunfold : followUps team t.expert raw t.depth =
      (rawDirectives raw).filterMap (fun d =>
        match resolveTarget team d.1 with
        | some tgt => if tgt.id ≠ t.expert.id then some (tgt, d.2) else none
        | none => none) := by
    unfold followUps
    rw [if_pos hd]
  have main : ∀ ds : List (String × String),
      (∀ p ∈ ds, ∃ e, resolveTarget team p.1 = some e ∧ e.id ≠ t.expert.id) →
      List.Forall₂ (fun (p : String × String) (f : Expert × String) =>
          resolveTarget team p.1 = some f.1 ∧ f.1.id ≠ t.expert.id ∧ f.2 = p.2)
        ds (ds.filterMap (fun d =>
          match resolveTarget team d.1 with
          | some tgt => if tgt.id ≠ t.expert.id then some (tgt, d.2) else none
          | none => none)) := by
    intro ds
    induction ds with
    | nil => intro _; exact List.Forall₂.nil
    | cons p ps ih =>
      intro hall
      obtain ⟨e, he, hne⟩ := hall p (List.mem_cons_self p ps)
      rw [List.filterMap_cons]
      simp only [he, hne, ne_eq, not_false_eq_true, if_true]
      exact List.Forall₂.cons ⟨he, hne, rfl⟩
        (ih (fun q hq => hall q (List.mem_cons_of_mem p hq)))
  have hfa := hunfold ▸ main (rawDirectives raw) hres
  have hlen : (followUps team t.expert raw t.depth).length = (rawDirectives raw).length :=
    (List.Forall₂.length_eq hfa).symm
  refine ⟨hfa, hlen, Step.exec (ExecStep.settleOk s l₁ l₂ t raw rid ts hs), ?_⟩
  intro hne
  have hfu_ne : followUps team t.expert raw t.depth ≠ [] := by
    intro h0
    rw [h0] at hlen
    exact hne (List.eq_nil_of_length_eq_zero hlen.symm ▸ rfl)
  have hwc : willContinue (followUps team t.expert raw t.depth) t.depth
      s.stopAutoExecution = true := by
    unfold willContinue
    rw [hstop]
    cases hcase : followUps team t.expert raw t.depth with
    | nil => exact absurd hcase hfu_ne
    | cons x xs => simp [hd]
  constructor
  · simp only [settleOkState, hwc, if_true]
    rfl
  · simp only [settleOkState, hwc, if_true, List.length_append, spawn_length]
    omega

/-- A response of Alice carrying two well-formed directives. -/
def rawBC : String :=
  ":::DELEGATE:::Bob:::check feasibility::: plan :::DELEGATE:::Carol:::draft campaign:::"

/-- Alice in flight on a root invocation, used by the witnesses. -/
def stA : EngineState :=
  { queued := [], started := [tA], activeTaskCount := 1,
    stopAutoExecution := false, pendingTasks := [mkMarker "m1" tA], taskResults := [] }

theorem c3_witness :
    (followUps teamABC tA.expert rawBC tA.depth).length = (rawDirectives rawBC).length := by
  have hdirs : rawDirectives rawBC =
      [("Bob", "check feasibility"), ("Carol", "draft campaign")] := by decide
  have h := c3_directive_resolution teamABC stA [] [] tA rawBC "r1" 5 rfl rfl (by decide) ?_
  · exact h.2.1
  · intro p hp
    rw [hdirs] at hp
    simp only [List.mem_cons, List.not_mem_nil, or_false] at hp
    rcases hp with rfl | rfl
    · exact ⟨bob, by decide, by decide⟩
    · exact ⟨carol, by decide, by decide⟩

/-- The text used to refute idempotence of the stripper: removing its one
directive match concatenates the surrounding text into a fresh directive. -/
def specimen : String := ":::DELE:::DELEGATE:::a:::b:::GATE:::A:::B:::"

/-- C9 counterexample: stripping `specimen` removes its single match yet
produces a new directive-shaped text, so the output still scans to a
directive and stripping it again changes it, refuting idempotence as
claimed. -/
theorem c9_counterexample :
    stripDelegates (stripDelegates specimen) ≠ stripDelegates specimen ∧
    rawDirectives (stripDelegates specimen) ≠ [] := by decide

/-- C9 amended: the stripper is the identity on every text that scans to zero
directives, so its output scans to zero directives again exactly on such
inputs; full idempotence fails (see the counterexample). -/
theorem c9_strip_identity_on_clean (s : String) (h : rawDirectives s = []) :
    stripDelegates s = s ∧ rawDirectives (stripDelegates s) = [] := by
  have h2 : (scanText s.data).2 = [] := by
    unfold rawDirectives at h
    simpa using h
  have h1 : (scanText s.data).1 = s.data :=
    scanTextF_no_match_id s.data.length s.data le_rfl h2
  have hid : stripDelegates s = s := by
    unfold stripDelegates
    rw [h1]
  exact ⟨hid, by rw [hid]; exact h⟩

theorem c9_witness :
    stripDelegates "Budget looks balanced." = "Budget looks balanced." ∧
    rawDirectives (stripDelegates "Budget looks balanced.") = [] :=
  c9_strip_identity_on_clean "Budget looks balanced." (by decide)

/-- C2 counterexample: at depth 2 the parser indeed returns no follow-up
targets, but the directive markup is not always absent from the cleaned text:
stripping `specimen` leaves a full directive in the user-visible result. -/
theorem c2_counterexample :
    followUps teamABC alice specimen 2 = [] ∧
    stripDelegates specimen = ":::DELEGATE:::A:::B:::" ∧
    rawDirectives (stripDelegates specimen) ≠ [] := by decide

/-- C2 amended: at depth at least 2 extraction is skipped, so no follow-up is
ever scheduled, while the very same stripping transformation is still applied
to the stored result text (each span the scan matches is removed, though the
removal can itself splice surrounding text into a new directive-shaped
substring that survives in the output). -/
theorem c2_depth_ceiling_strips (team : List Expert) (s : EngineState)
    (l₁ l₂ : List TaskInvocation) (t : TaskInvocation) (raw rid : String) (ts : Nat)
    (hs : s.started = l₁ ++ t :: l₂) (hd : MAX_DEPTH ≤ t.depth) :
    followUps team t.expert raw t.depth = [] ∧
    Step team s (settleOkState team s l₁ l₂ t raw rid ts) ∧
    (settleOkState team s l₁ l₂ t raw rid ts).queued = s.queued ∧
    (settleOkState team s l₁ l₂ t raw rid ts).taskResults =
      mkResult rid ts t raw :: s.taskResults ∧
    (mkResult rid ts t raw).resultContent = stripDelegates raw := by
  have hfu : followUps team t.expert raw t.depth = [] := by
    unfold followUps
    rw [if_neg (by omega)]
  have hwc : willContinue (followUps team t.expert raw t.depth) t.depth
      s.stopAutoExecution = false := by
    rw [hfu]
    unfold willContinue
    simp
  refine ⟨hfu, Step.exec (ExecStep.settleOk s l₁ l₂ t raw rid ts hs), ?_, rfl, rfl⟩
  simp only [settleOkState, hwc, Bool.false_eq_true, if_false]

/-- Alice in flight at the depth ceiling, used by the witnesses. -/
def tA2 : TaskInvocation :=
  { expert := alice, instruction := "deep analysis", triggerBy := some "Bob", depth := 2 }

/-- A state with one depth-2 invocation in flight. -/
def stD2 : EngineState :=
  { queued := [], started := [tA2], activeTaskCount := 1,
    stopAutoExecution := false, pendingTasks := [mkMarker "m9" tA2], taskResults := [] }

theorem c2_witness :
    followUps teamABC tA2.expert specimen tA2.depth = [] ∧
    (settleOkState teamABC stD2 [] [] tA2 specimen "r9" 9).queued = stD2.queued := by
  have h := c2_depth_ceiling_strips teamABC stD2 [] [] tA2 specimen "r9" 9 rfl (by decide)
  exact ⟨h.1, h.2.2.1⟩

/-- C10: settlement bookkeeping is keyed by expert id, not by marker id: a
success removes every marker whose expert id equals the settling invocation's
expert (whatever its status or which invocation created it) and keeps every
other marker, and a failure rewrites every marker of that expert id to an
error marker carrying the new message. -/
theorem c10_markers_keyed_by_expert (team : List Expert) (s : EngineState)
    (l₁ l₂ : List TaskInvocation) (t : TaskInvocation) (raw rid msg : String) (ts : Nat)
    (hs : s.started = l₁ ++ t :: l₂) :
    Step team s (settleOkState team s l₁ l₂ t raw rid ts) ∧
    Step team s (settleErrState s l₁ l₂ t msg) ∧
    (∀ m ∈ s.pendingTasks, m.expertId = t.expert.id →
      m ∉ (settleOkState team s l₁ l₂ t raw rid ts).pendingTasks) ∧
    (∀ m ∈ s.pendingTasks, m.expertId ≠ t.expert.id →
      m ∈ (settleOkState team s l₁ l₂ t raw rid ts).pendingTasks) ∧
    ((settleErrState s l₁ l₂ t msg).pendingTasks =
      s.pendingTasks.map (errifyMarker t.expert.id msg)) ∧
    (∀ m ∈ s.pendingTasks, m.expertId = t.expert.id →
      (errifyMarker t.expert.id msg m).status = MarkerStatus.error ∧
      (errifyMarker t.expert.id msg m).errorMessage = some msg) := by
  refine ⟨Step.exec (ExecStep.settleOk s l₁ l₂ t raw rid ts hs),
    Step.exec (ExecStep.settleErr s l₁ l₂ t msg hs), ?_, ?_, rfl, ?_⟩
  · intro m _ hid hmem
    simp only [settleOkState, List.mem_filter, bne_iff_ne, ne_eq] at hmem
    exact hmem.2 hid
  · intro m hm hid
    simp only [settleOkState, List.mem_filter, bne_iff_ne, ne_eq]
    exact ⟨hm, hid⟩
  · intro m _ hid
    unfold errifyMarker
    simp [hid]

/-- An error marker of Alice left over from an earlier failed invocation. -/
def mAliceErr : PendingTask :=
  { id := "m1", expertId := "e1", expertName := "Alice", expertAvatar := "a.png",
    status := MarkerStatus.error, errorMessage := some "401 Unauthorized",
    triggerBy := none }

/-- Alice's later follow-up invocation, used by the witnesses. -/
def tA1 : TaskInvocation :=
  { expert := alice, instruction := "retry the review", triggerBy := some "Bob", depth := 1 }

/-- A state where Alice's old error marker coexists with a fresh pending
marker of a second in-flight invocation of Alice. -/
def stDup : EngineState :=
  { queued := [], started := [tA1], activeTaskCount := 1,
    stopAutoExecution := false,
    pendingTasks := [mAliceErr, mkMarker "m2" tA1], taskResults := [] }

theorem c10_witness :
    mAliceErr ∉ (settleOkState teamABC stDup [] [] tA1 "done" "r1" 7).pendingTasks :=
  (c10_markers_keyed_by_expert teamABC stDup [] [] tA1 "done" "r1" "oops" 7 rfl).2.2.1
    mAliceErr (by decide) rfl

/-- C8 counterexample: a successful settlement of a later invocation of the
same expert removes Alice's retained error marker even though the user never
cleared it — the step shown records a new result, so it is a settlement, not
a `handleClearPending` call. -/
theorem c8_counterexample :
    mAliceErr ∈ stDup.pendingTasks ∧
    mAliceErr.status = MarkerStatus.error ∧
    Step teamABC stDup (settleOkState teamABC stDup [] [] tA1 "all good" "r2" 8) ∧
    mAliceErr ∉ (settleOkState teamABC stDup [] [] tA1 "all good" "r2" 8).pendingTasks ∧
    (settleOkState teamABC stDup [] [] tA1 "all good" "r2" 8).taskResults.length =
      stDup.taskResults.length + 1 :=
  ⟨by decide, rfl,
    Step.exec (ExecStep.settleOk stDup [] [] tA1 "all good" "r2" 8 rfl),
    by decide, by decide⟩

/-- C8 amended: a marker is created when its invocation begins, removed
(together with every other marker of the same expert) when an invocation of
that expert succeeds, and rewritten to an error marker on failure; an error
marker disappears from the collection only when an invocation of the same
expert settles or when the user clears exactly that expert's markers — no
step concerning a different expert ever removes it. -/
theorem c8_error_marker_persistence (team : List Expert) (s s' : EngineState)
    (hstep : Step team s s') (m : PendingTask) (hm : m ∈ s.pendingTasks)
    (_hstatus : m.status = MarkerStatus.error) (hgone : m ∉ s'.pendingTasks) :
    (∃ t ∈ s.started, t.expert.id = m.expertId) ∨
    s'.pendingTasks = s.pendingTasks.filter (fun p => p.expertId != m.expertId) := by
  cases hstep with
  | exec he' =>
    cases he' with
    | startAbandon l₁ l₂ t hq hstop =>
      exact absurd hm hgone
    | startRun l₁ l₂ t mid hq hstop =>
      exact absurd (by simp only [startRunState, List.mem_append]; exact Or.inl hm) hgone
    | settleOk l₁ l₂ t raw rid ts hs =>
      left
      by_cases hid : m.expertId = t.expert.id
      · exact ⟨t, hs ▸ (by simp : t ∈ l₁ ++ t :: l₂), hid.symm⟩
      · exfalso
        apply hgone
        simp only [settleOkState, List.mem_filter, bne_iff_ne, ne_eq]
        exact ⟨hm, hid⟩
    | settleErr l₁ l₂ t msg hs =>
      left
      by_cases hid : m.expertId = t.expert.id
      · exact ⟨t, hs ▸ (by simp : t ∈ l₁ ++ t :: l₂), hid.symm⟩
      · exfalso
        apply hgone
        simp only [settleErrState, List.mem_map]
        refine ⟨m, hm, ?_⟩
        unfold errifyMarker
        simp [hid]
  | cancel h =>
    exact absurd hm hgone
  | clearPending eid =>
    by_cases hid : m.expertId = eid
    · right
      rw [hid]
      rfl
    · exfalso
      apply hgone
      simp only [clearPendingState, List.mem_filter, bne_iff_ne, ne_eq]
      exact ⟨hm, hid⟩

theorem c8_witness :
    (∃ t ∈ stDup.started, t.expert.id = mAliceErr.expertId) ∨
    (settleOkState teamABC stDup [] [] tA1 "all good" "r2" 8).pendingTasks =
      stDup.pendingTasks.filter (fun p => p.expertId != mAliceErr.expertId) :=
  c8_error_marker_persistence teamABC stDup
    (settleOkState teamABC stDup [] [] tA1 "all good" "r2" 8)
    (Step.exec (ExecStep.settleOk stDup [] [] tA1 "all good" "r2" 8 rfl))
    mAliceErr (by decide) rfl (by decide)

end ExpertAI
